import Mathlib

/-!
# Verification of the johnny multi-source version resolution engine

Shallow embedding of `src/johnny/__init__.py` (the whole repository is this
one module).  Python dicts are embedded as association lists with unique
keys (`dictLookup` / `dictSet` mirror `d[k]` reads and writes), version
values as the normalized form produced by `try_parse_versions`, and the
network as explicit response oracles passed to each adapter.
-/

/-! ## Version values and their order

`try_parse_versions` re-parses `ver.base_version` for every successfully
parsed string, so every version value that the program ever stores or
compares carries only an epoch and a release segment list — pre-release,
post, dev and local qualifiers are all cleared by the round trip.  We embed
these normalized values as `NVersion`.  `packaging`'s comparison key on such
values reduces to: compare epochs, then compare release tuples with trailing
zeros removed, lexicographically (a strict prefix sorts first).  `nvCmp`
implements exactly that restriction.
-/

/-- A normalized version value: what `version.parse(v.base_version)` holds.
Only the epoch and the release segments survive the `base_version` round
trip in `try_parse_versions`. -/
structure NVersion where
  epoch : Nat
  release : List Nat
  deriving DecidableEq, Repr

/-- Three-way comparison of Python ints (the numeric version parts). -/
def natCmp (a b : Nat) : Ordering :=
  if a < b then .lt else if b < a then .gt else .eq

/-- Lexicographic three-way comparison of int tuples, as Python compares the
release tuples inside `packaging`'s `_cmpkey`: a strict prefix sorts first. -/
def listCmp : List Nat → List Nat → Ordering
  | [], [] => .eq
  | [], _ :: _ => .lt
  | _ :: _, [] => .gt
  | a :: as, b :: bs => (natCmp a b).then (listCmp as bs)

/-- `packaging._cmpkey` drops trailing zeros from the release tuple before
comparing, so `1.0` and `1.0.0` compare equal. -/
def trimZeros (l : List Nat) : List Nat :=
  (l.reverse.dropWhile (· == 0)).reverse

/-- The `packaging` total-order comparison, restricted to the normalized
(epoch + release only) values the program actually compares.  On such values
the pre/post/dev/local components of `_cmpkey` are identical constants on
both sides, so the key comparison reduces to epoch, then trimmed release. -/
def nvCmp (a b : NVersion) : Ordering :=
  (natCmp a.epoch b.epoch).then (listCmp (trimZeros a.release) (trimZeros b.release))

/-- Python `a < b` on parsed versions. -/
def nvLt (a b : NVersion) : Bool := nvCmp a b == .lt

/-- Python `a <= b` on parsed versions. -/
def nvLe (a b : NVersion) : Bool := nvCmp a b != .gt

/-- `nvLe` as a relation, for use with `List.insertionSort` / `List.Sorted`. -/
def nvLeR (a b : NVersion) : Prop := nvLe a b = true

instance : DecidableRel nvLeR := fun a b => instDecidableEqBool (nvLe a b) true

/-! ### Order lemmas -/

theorem ordThen_swap (o p : Ordering) : (o.then p).swap = o.swap.then p.swap := by
  cases o <;> cases p <;> rfl

theorem ordThen_eq_lt {o p : Ordering} :
    o.then p = .lt ↔ o = .lt ∨ (o = .eq ∧ p = .lt) := by
  cases o <;> cases p <;> simp [Ordering.then]

theorem ordThen_eq_eq {o p : Ordering} :
    o.then p = .eq ↔ o = .eq ∧ p = .eq := by
  cases o <;> cases p <;> simp [Ordering.then]

theorem natCmp_eq_lt {a b : Nat} : natCmp a b = .lt ↔ a < b := by
  unfold natCmp
  by_cases h : a < b
  · simp [h]
  · by_cases h2 : b < a <;> simp [h, h2]

theorem natCmp_eq_eq {a b : Nat} : natCmp a b = .eq ↔ a = b := by
  unfold natCmp
  by_cases h : a < b
  · simp [h, Nat.ne_of_lt h]
  · by_cases h2 : b < a
    · simp [h, h2, (Nat.ne_of_lt h2).symm]
    · simp [h, h2]
      omega

theorem natCmp_swap {a b : Nat} : natCmp b a = (natCmp a b).swap := by
  unfold natCmp
  rcases Nat.lt_trichotomy a b with h | h | h
  · simp [h, Nat.lt_asymm h, Ordering.swap]
  · subst h
    simp [lt_irrefl, Ordering.swap]
  · simp [h, Nat.lt_asymm h, Ordering.swap]

theorem listCmp_eq_eq : ∀ {a b : List Nat}, listCmp a b = .eq ↔ a = b := by
  intro a
  induction a with
  | nil => intro b; cases b <;> simp [listCmp]
  | cons x xs ih =>
    intro b
    cases b with
    | nil => simp [listCmp]
    | cons y ys => simp [listCmp, ordThen_eq_eq, natCmp_eq_eq, ih]

theorem listCmp_swap : ∀ (a b : List Nat), listCmp b a = (listCmp a b).swap := by
  intro a
  induction a with
  | nil => intro b; cases b <;> rfl
  | cons x xs ih =>
    intro b
    cases b with
    | nil => rfl
    | cons y ys =>
      show (natCmp y x).then (listCmp ys xs) = ((natCmp x y).then (listCmp xs ys)).swap
      rw [ordThen_swap, natCmp_swap, ih]

theorem listCmp_lt_trans :
    ∀ {a b c : List Nat}, listCmp a b = .lt → listCmp b c = .lt → listCmp a c = .lt := by
  intro a
  induction a with
  | nil =>
    intro b c hab hbc
    cases c with
    | cons z zs => simp [listCmp]
    | nil =>
      cases b with
      | nil => exact hbc
      | cons y ys => simp [listCmp] at hbc
  | cons x xs ih =>
    intro b c hab hbc
    cases b with
    | nil => simp [listCmp] at hab
    | cons y ys =>
      cases c with
      | nil => simp [listCmp] at hbc
      | cons z zs =>
        simp only [listCmp, ordThen_eq_lt] at hab hbc ⊢
        rcases hab with h1 | ⟨h1, h1'⟩ <;> rcases hbc with h2 | ⟨h2, h2'⟩
        · exact Or.inl (natCmp_eq_lt.mpr
            (lt_trans (natCmp_eq_lt.mp h1) (natCmp_eq_lt.mp h2)))
        · obtain rfl := natCmp_eq_eq.mp h2
          exact Or.inl h1
        · obtain rfl := natCmp_eq_eq.mp h1
          exact Or.inl h2
        · obtain rfl := natCmp_eq_eq.mp h1
          exact Or.inr ⟨h2, ih h1' h2'⟩

theorem nvCmp_swap {a b : NVersion} : nvCmp b a = (nvCmp a b).swap := by
  unfold nvCmp
  rw [ordThen_swap, natCmp_swap, listCmp_swap]

theorem nvCmp_eq_of_eq {a b : NVersion} (h : nvCmp a b = .eq) :
    a.epoch = b.epoch ∧ trimZeros a.release = trimZeros b.release := by
  simp only [nvCmp, ordThen_eq_eq] at h
  exact ⟨natCmp_eq_eq.mp h.1, listCmp_eq_eq.mp h.2⟩

theorem nvCmp_lt_trans {a b c : NVersion} (hab : nvCmp a b = .lt) (hbc : nvCmp b c = .lt) :
    nvCmp a c = .lt := by
  simp only [nvCmp, ordThen_eq_lt] at hab hbc ⊢
  rcases hab with h1 | ⟨h1, h1'⟩ <;> rcases hbc with h2 | ⟨h2, h2'⟩
  · exact Or.inl (natCmp_eq_lt.mpr
      (lt_trans (natCmp_eq_lt.mp h1) (natCmp_eq_lt.mp h2)))
  · rw [natCmp_eq_eq.mp h2] at h1
    exact Or.inl h1
  · rw [← natCmp_eq_eq.mp h1] at h2
    exact Or.inl h2
  · exact Or.inr ⟨natCmp_eq_eq.mpr ((natCmp_eq_eq.mp h1).trans (natCmp_eq_eq.mp h2)),
      listCmp_lt_trans h1' h2'⟩

theorem nvLe_iff {a b : NVersion} : nvLe a b = true ↔ nvCmp a b ≠ .gt := by
  unfold nvLe
  cases h : nvCmp a b <;> simp <;> decide

theorem nvLt_iff {a b : NVersion} : nvLt a b = true ↔ nvCmp a b = .lt := by
  unfold nvLt
  cases h : nvCmp a b <;> simp <;> decide

theorem nvLe_refl (a : NVersion) : nvLe a a = true := by
  unfold nvLe
  have h : nvCmp a a = .eq := by
    simp only [nvCmp, ordThen_eq_eq]
    exact ⟨natCmp_eq_eq.mpr rfl, listCmp_eq_eq.mpr rfl⟩
  rw [h]
  rfl

theorem nvLe_total (a b : NVersion) : nvLe a b = true ∨ nvLe b a = true := by
  by_cases h : nvCmp a b = .gt
  · right
    unfold nvLe
    rw [nvCmp_swap, h]
    rfl
  · left
    exact nvLe_iff.mpr h

theorem nvLe_trans {a b c : NVersion} (hab : nvLe a b = true) (hbc : nvLe b c = true) :
    nvLe a c = true := by
  rw [nvLe_iff] at hab hbc ⊢
  intro hac
  cases h1 : nvCmp a b with
  | gt => exact hab h1
  | eq =>
    obtain ⟨he, hr⟩ := nvCmp_eq_of_eq h1
    have heq : nvCmp a c = nvCmp b c := by unfold nvCmp; rw [he, hr]
    rw [heq] at hac
    exact hbc hac
  | lt =>
    cases h2 : nvCmp b c with
    | gt => exact hbc h2
    | eq =>
      obtain ⟨he, hr⟩ := nvCmp_eq_of_eq h2
      have heq : nvCmp a c = nvCmp a b := by unfold nvCmp; rw [he, hr]
      rw [heq, h1] at hac
      cases hac
    | lt =>
      rw [nvCmp_lt_trans h1 h2] at hac
      cases hac

theorem nvLt_le {a b : NVersion} (h : nvLt a b = true) : nvLe a b = true := by
  rw [nvLt_iff] at h
  rw [nvLe_iff, h]
  decide

theorem not_nvLt_le {a b : NVersion} (h : nvLt a b = false) : nvLe b a = true := by
  rw [nvLe_iff, nvCmp_swap]
  cases hc : nvCmp a b with
  | lt =>
    have := nvLt_iff.mpr hc
    rw [this] at h
    cases h
  | eq => decide
  | gt => decide

instance : IsTotal NVersion nvLeR := ⟨nvLe_total⟩

instance : IsTrans NVersion nvLeR := ⟨fun _ _ _ => nvLe_trans⟩

/-! ## The version parser

`try_parse_versions` (src/johnny/__init__.py, `try_parse_versions`) calls
`packaging.version.parse`, which returns a structured `Version` when the
PEP 440 grammar matches and a `LegacyVersion` otherwise; the loop drops the
legacy case, so we embed the library parser as an `Option`-returning
function.  The grammar is matched case-insensitively on the
whitespace-stripped string, with an optional leading `v`.  Alternation over
the pre-release / post-release spellings is embedded as longest-match, which
agrees with the regex's backtracking on this grammar because no shorter
alternative can lead to an overall match where the longer one fails.
-/

/-- The fields `packaging.version.Version` parses out of a PEP 440 string.
A local segment is an int or an alphanumeric string (`Sum Nat String`). -/
structure PyVersion where
  epoch : Nat
  release : List Nat
  pre : Option (String × Nat) := none
  post : Option Nat := none
  dev : Option Nat := none
  localVer : Option (List (Sum Nat String)) := none
  deriving DecidableEq, Repr

def isDigitC (c : Char) : Bool := c.isDigit

/-- Python `\s` (ASCII range). -/
def isSpaceC (c : Char) : Bool :=
  c == ' ' || c == '\t' || c == '\n' || c == '\r' || c == '\x0b' || c == '\x0c'

/-- The separators `[-_.]` allowed between version parts. -/
def isSepC (c : Char) : Bool := c == '-' || c == '_' || c == '.'

/-- Characters allowed in a local segment (the input is lowercased first). -/
def isLocalC (c : Char) : Bool := c.isDigit || (c ≥ 'a' && c ≤ 'z')

def digitsToNat (cs : List Char) : Nat :=
  cs.foldl (fun n c => n * 10 + (c.toNat - 48)) 0

/-- Consume `(\.[0-9]+)*` after the first release number: `cur` is the
number being accumulated, `acc` the completed segments.  A dot not followed
by a digit is left unconsumed, as the regex leaves it for later groups. -/
def relTail : List Char → List Nat → Nat → (List Nat × List Char)
  | [], acc, cur => (acc ++ [cur], [])
  | c :: cs, acc, cur =>
    if c.isDigit then relTail cs acc (cur * 10 + (c.toNat - 48))
    else if c = '.' then
      match cs with
      | c2 :: _ =>
        if c2.isDigit then relTail cs (acc ++ [cur]) 0
        else (acc ++ [cur], c :: cs)
      | [] => (acc ++ [cur], [c])
    else (acc ++ [cur], c :: cs)

/-- `[0-9]+(?:\.[0-9]+)*` — the release segment list. -/
def parseRelease : List Char → Option (List Nat × List Char)
  | c :: cs => if c.isDigit then some (relTail cs [] (c.toNat - 48)) else none
  | [] => none

/-- First word of `ws` that is a prefix of the input (the lists are ordered
longest first, so this is longest-match); yields the normalized spelling. -/
def matchWord : List (String × String) → List Char → Option (String × List Char)
  | [], _ => none
  | (w, norm) :: rest, cs =>
    if w.toList.isPrefixOf cs then some (norm, cs.drop w.length)
    else matchWord rest cs

/-- Pre-release spellings and their normalization, longest first. -/
def preWords : List (String × String) :=
  [("preview", "rc"), ("alpha", "a"), ("beta", "b"), ("pre", "rc"),
   ("rc", "rc"), ("a", "a"), ("b", "b"), ("c", "rc")]

/-- Post-release spellings, longest first (all normalize to `post`). -/
def postWords : List (String × String) :=
  [("post", "post"), ("rev", "post"), ("r", "post")]

/-- Drop one leading separator, if present. -/
def dropSep : List Char → List Char
  | c :: cs => if isSepC c then cs else c :: cs
  | [] => []

/-- `(?:[-_\.]?(a|b|c|rc|alpha|beta|pre|preview)[-_\.]?([0-9]+)?)?` with the
missing number defaulting to 0; no match consumes nothing. -/
def parsePre (cs : List Char) : Option (String × Nat) × List Char :=
  match matchWord preWords (dropSep cs) with
  | none => (none, cs)
  | some (norm, cs2) =>
    let cs3 := dropSep cs2
    (some (norm, digitsToNat (cs3.takeWhile isDigitC)), cs3.dropWhile isDigitC)

/-- The worded post-release alternative `[-_\.]?(post|rev|r)[-_\.]?([0-9]+)?`. -/
def parsePostWord (cs : List Char) : Option Nat × List Char :=
  match matchWord postWords (dropSep cs) with
  | none => (none, cs)
  | some (_, cs2) =>
    let cs3 := dropSep cs2
    (some (digitsToNat (cs3.takeWhile isDigitC)), cs3.dropWhile isDigitC)

/-- The post-release group: the implicit `-N` form, else the worded form. -/
def parsePost (cs : List Char) : Option Nat × List Char :=
  match cs with
  | '-' :: rest =>
    let ds := rest.takeWhile isDigitC
    if ds.isEmpty then parsePostWord cs
    else (some (digitsToNat ds), rest.dropWhile isDigitC)
  | _ => parsePostWord cs

/-- `(?:[-_\.]?dev[-_\.]?([0-9]+)?)?`. -/
def parseDev (cs : List Char) : Option Nat × List Char :=
  match matchWord [("dev", "dev")] (dropSep cs) with
  | none => (none, cs)
  | some (_, cs2) =>
    let cs3 := dropSep cs2
    (some (digitsToNat (cs3.takeWhile isDigitC)), cs3.dropWhile isDigitC)

/-- A local segment: all digits becomes an int, otherwise the string. -/
def localSeg (s : List Char) : Sum Nat String :=
  if s.all isDigitC then Sum.inl (digitsToNat s) else Sum.inr (String.mk s)

/-- Consume `[a-z0-9]+(?:[-_\.][a-z0-9]+)*`: `cur` holds the current segment
reversed, `acc` the completed segments.  `none` means the local part is
malformed at this point (which makes the whole parse fail at the anchor). -/
def localGo : List Char → List Char → List (Sum Nat String) →
    Option (List (Sum Nat String) × List Char)
  | [], cur, acc =>
    if cur.isEmpty then none else some (acc ++ [localSeg cur.reverse], [])
  | c :: cs, cur, acc =>
    if isLocalC c then localGo cs (c :: cur) acc
    else if isSepC c then
      if cur.isEmpty then none
      else
        match cs with
        | c2 :: _ =>
          if isLocalC c2 then localGo cs [] (acc ++ [localSeg cur.reverse])
          else some (acc ++ [localSeg cur.reverse], c :: cs)
        | [] => some (acc ++ [localSeg cur.reverse], [c])
    else if cur.isEmpty then none
    else some (acc ++ [localSeg cur.reverse], c :: cs)

/-- `(?:\+([a-z0-9]+(?:[-_\.][a-z0-9]+)*))?`: a `+` not followed by a
well-formed local part is left in place (so the end-anchor fails). -/
def parseLocal (cs : List Char) : Option (List (Sum Nat String)) × List Char :=
  match cs with
  | '+' :: rest =>
    match localGo rest [] [] with
    | none => (none, cs)
    | some (segs, rest2) => (some segs, rest2)
  | _ => (none, cs)

/-- The optional `N!` epoch; bare digits without `!` belong to the release. -/
def parseEpoch (cs : List Char) : Nat × List Char :=
  let ds := cs.takeWhile isDigitC
  match cs.dropWhile isDigitC with
  | '!' :: rest2 => if ds.isEmpty then (0, cs) else (digitsToNat ds, rest2)
  | _ => (0, cs)

/-- `packaging.version.parse`, with `none` for the `LegacyVersion` case:
whitespace-stripped, case-insensitive, optional leading `v`, then
epoch/release/pre/post/dev/local, anchored at the end. -/
def parseVersion (s : String) : Option PyVersion :=
  let cs := (s.toList.map Char.toLower).dropWhile isSpaceC
  let cs := (cs.reverse.dropWhile isSpaceC).reverse
  let cs := match cs with
    | 'v' :: rest => rest
    | other => other
  let (epoch, cs) := parseEpoch cs
  match parseRelease cs with
  | none => none
  | some (rel, cs) =>
    let (pre, cs) := parsePre cs
    let (post, cs) := parsePost cs
    let (dev, cs) := parseDev cs
    let (loc, cs) := parseLocal cs
    if cs.isEmpty then some ⟨epoch, rel, pre, post, dev, loc⟩ else none

/-- `version.parse(ver.base_version)`: `base_version` prints only the epoch
and the release segments, and re-parsing that string sets exactly those two
fields, so the round trip keeps epoch and release and clears the rest. -/
def base_parse (v : PyVersion) : NVersion := ⟨v.epoch, v.release⟩

/-- Python `ver.strip("v")`: remove every leading and trailing `'v'`. -/
def stripV (s : String) : String :=
  String.mk (((s.toList.dropWhile (· == 'v')).reverse.dropWhile (· == 'v')).reverse)

/-- One iteration of the `try_parse_versions` loop: strip `v`s, parse, drop
`LegacyVersion`s, reduce to the base version. -/
def parseNorm (ver : String) : Option NVersion :=
  (parseVersion (stripV ver)).map base_parse

/-- `try_parse_versions`: the successfully parsed, normalized versions,
sorted ascending.  Python's `sorted` is the stable ascending sort under the
version order, which is `List.insertionSort` with `nvLeR`. -/
def try_parse_versions (versions : List String) : List NVersion :=
  List.insertionSort nvLeR (versions.filterMap parseNorm)

example : parseNorm "1.2.3rc1" = some ⟨0, [1, 2, 3]⟩ := by decide
example : parseNorm "1.2.3" = some ⟨0, [1, 2, 3]⟩ := by decide
example : parseNorm "v1.0.0" = some ⟨0, [1, 0, 0]⟩ := by decide
example : parseNorm "1.2.3+build5" = some ⟨0, [1, 2, 3]⟩ := by decide
example : parseNorm "2.0" = some ⟨0, [2, 0]⟩ := by decide
example : parseNorm "1!2.0.dev3" = some ⟨1, [2, 0]⟩ := by decide
example : parseNorm "banana" = none := by decide
example : parseNorm "1.2.3junk" = none := by decide
example : try_parse_versions ["1.0.0", "1.2.0", "0.9.0"] =
    [⟨0, [0, 9, 0]⟩, ⟨0, [1, 0, 0]⟩, ⟨0, [1, 2, 0]⟩] := by decide

/-! ## Dicts and the merge policy

Python dicts are embedded as association lists with distinct keys, in
insertion order.  `dictLookup` is `d[k]` / `k in d`, `dictSet` is
`d[k] = v` (replacing in place, appending when new). -/

def dictLookup {α : Type} : List (String × α) → String → Option α
  | [], _ => none
  | (k', v) :: rest, k => if k' = k then some v else dictLookup rest k

def dictSet {α : Type} : List (String × α) → String → α → List (String × α)
  | [], k, v => [(k, v)]
  | (k', v') :: rest, k, v =>
    if k' = k then (k', v) :: rest else (k', v') :: dictSet rest k v

/-- Version values as stored by the engine: a resolved map. -/
abbrev Dict := List (String × NVersion)

/-- The body of the `update` loop for one item `(k, v)` of `new`. -/
def updateStep (res : Dict) (kv : String × NVersion) : Dict :=
  match dictLookup res kv.1 with
  | none => dictSet res kv.1 kv.2
  | some ov => if nvLt ov kv.2 then dictSet res kv.1 kv.2 else res

/-- `update(old, new)` (src/johnny/__init__.py, `update`): copy `old`, then
for every `(k, v)` in `new` insert `v` when `k` is absent and replace only
when `v > res[k]`. -/
def update (old new : Dict) : Dict :=
  new.foldl updateStep old

/-! ### Dict and merge lemmas -/

theorem dictLookup_dictSet_self {α : Type} (d : List (String × α)) (k : String) (v : α) :
    dictLookup (dictSet d k v) k = some v := by
  induction d with
  | nil => simp [dictSet, dictLookup]
  | cons kv rest ih =>
    obtain ⟨k', v'⟩ := kv
    by_cases h : k' = k
    · simp [dictSet, dictLookup, h]
    · simp [dictSet, dictLookup, h, ih]

theorem dictLookup_dictSet_ne {α : Type} (d : List (String × α)) {k k2 : String} (v : α)
    (h : k ≠ k2) : dictLookup (dictSet d k v) k2 = dictLookup d k2 := by
  induction d with
  | nil => simp [dictSet, dictLookup, h]
  | cons kv rest ih =>
    obtain ⟨k', v'⟩ := kv
    by_cases h2 : k' = k
    · subst h2
      simp [dictSet, dictLookup, h]
    · simp [dictSet, dictLookup, h2, ih]

theorem dictSet_keys_subset {α : Type} (d : List (String × α)) (k k2 : String) (v : α)
    (h : k2 ∈ (dictSet d k v).map Prod.fst) : k2 = k ∨ k2 ∈ d.map Prod.fst := by
  induction d with
  | nil => simpa [dictSet] using h
  | cons kv rest ih =>
    obtain ⟨k', v'⟩ := kv
    by_cases h2 : k' = k
    · simp only [dictSet, h2, if_true, List.map_cons, List.mem_cons] at h
      rcases h with h | h
      · exact Or.inl h
      · exact Or.inr (by simp [h])
    · simp only [dictSet, h2, if_false, List.map_cons, List.mem_cons] at h
      rcases h with h | h
      · exact Or.inr (by simp [h])
      · rcases ih h with h3 | h3
        · exact Or.inl h3
        · exact Or.inr (by simp [h3])

theorem updateStep_lookup_ne (res : Dict) (kv : String × NVersion) (k : String)
    (h : kv.1 ≠ k) : dictLookup (updateStep res kv) k = dictLookup res k := by
  unfold updateStep
  cases dictLookup res kv.1 with
  | none => exact dictLookup_dictSet_ne res kv.2 h
  | some ov =>
    by_cases hlt : nvLt ov kv.2 = true
    · simp [hlt, dictLookup_dictSet_ne res kv.2 h]
    · simp [hlt]

theorem updateStep_mono (res : Dict) (kv : String × NVersion) (k : String) (v : NVersion)
    (h : dictLookup res k = some v) :
    ∃ v', dictLookup (updateStep res kv) k = some v' ∧ nvLe v v' = true := by
  by_cases hk : kv.1 = k
  · subst hk
    unfold updateStep
    rw [h]
    by_cases hlt : nvLt v kv.2 = true
    · exact ⟨kv.2, by simp [hlt, dictLookup_dictSet_self], nvLt_le hlt⟩
    · rw [Bool.not_eq_true] at hlt
      exact ⟨v, by simp [hlt, h], nvLe_refl v⟩
  · exact ⟨v, by rw [updateStep_lookup_ne res kv k hk]; exact h, nvLe_refl v⟩

theorem update_cons (old : Dict) (kv : String × NVersion) (rest : List (String × NVersion)) :
    update old (kv :: rest) = update (updateStep old kv) rest := rfl

theorem update_lookup_mono (new old : Dict) (k : String) (v : NVersion)
    (h : dictLookup old k = some v) :
    ∃ v', dictLookup (update old new) k = some v' ∧ nvLe v v' = true := by
  induction new generalizing old v with
  | nil => exact ⟨v, h, nvLe_refl v⟩
  | cons kv rest ih =>
    obtain ⟨w, hw, hvw⟩ := updateStep_mono old kv k v h
    obtain ⟨v', hv', hwv'⟩ := ih (updateStep old kv) w hw
    exact ⟨v', by rw [update_cons]; exact hv', nvLe_trans hvw hwv'⟩

theorem update_lookup_not_mem (new old : Dict) (k : String)
    (h : k ∉ new.map Prod.fst) :
    dictLookup (update old new) k = dictLookup old k := by
  induction new generalizing old with
  | nil => rfl
  | cons kv rest ih =>
    simp only [List.map_cons, List.mem_cons, not_or] at h
    rw [update_cons, ih (updateStep old kv) h.2, updateStep_lookup_ne old kv k (Ne.symm h.1)]

theorem update_entry_le (new old : Dict) (k : String) (v : NVersion)
    (h : (k, v) ∈ new) :
    ∃ v', dictLookup (update old new) k = some v' ∧ nvLe v v' = true := by
  induction new generalizing old with
  | nil => cases h
  | cons kv rest ih =>
    rcases List.mem_cons.mp h with h | h
    · subst h
      rw [update_cons]
      have hstep : ∃ w, dictLookup (updateStep old (k, v)) k = some w ∧ nvLe v w = true := by
        unfold updateStep
        cases hov : dictLookup old k with
        | none => exact ⟨v, by simp [dictLookup_dictSet_self], nvLe_refl v⟩
        | some ov =>
          by_cases hlt : nvLt ov v = true
          · exact ⟨v, by simp [hlt, dictLookup_dictSet_self], nvLe_refl v⟩
          · rw [Bool.not_eq_true] at hlt
            exact ⟨ov, by simp [hlt]; exact hov, not_nvLt_le hlt⟩
      obtain ⟨w, hw, hvw⟩ := hstep
      obtain ⟨v', hv', hwv'⟩ := update_lookup_mono rest _ k w hw
      exact ⟨v', hv', nvLe_trans hvw hwv'⟩
    · rw [update_cons]
      exact ih (updateStep old kv) h

theorem update_keys_subset (new old : Dict) (k : String)
    (h : k ∈ (update old new).map Prod.fst) :
    k ∈ old.map Prod.fst ∨ k ∈ new.map Prod.fst := by
  induction new generalizing old with
  | nil => exact Or.inl h
  | cons kv rest ih =>
    rw [update_cons] at h
    rcases ih (updateStep old kv) h with h2 | h2
    · unfold updateStep at h2
      cases hov : dictLookup old kv.1 with
      | none =>
        rw [hov] at h2
        dsimp only at h2
        rcases dictSet_keys_subset old kv.1 k kv.2 h2 with h3 | h3
        · exact Or.inr (by simp [h3])
        · exact Or.inl h3
      | some ov =>
        rw [hov] at h2
        dsimp only at h2
        by_cases hlt : nvLt ov kv.2 = true
        · rw [if_pos hlt] at h2
          rcases dictSet_keys_subset old kv.1 k kv.2 h2 with h3 | h3
          · exact Or.inr (by simp [h3])
          · exact Or.inl h3
        · rw [if_neg hlt] at h2
          exact Or.inl h2
    · exact Or.inr (by simp [h2])

/-- "Never regresses": every key of `d1` is still present in `d2` with a
value at least as large. -/
def DictLe (d1 d2 : Dict) : Prop :=
  ∀ k v, dictLookup d1 k = some v → ∃ v', dictLookup d2 k = some v' ∧ nvLe v v' = true

theorem DictLe_refl (d : Dict) : DictLe d d :=
  fun _ v h => ⟨v, h, nvLe_refl v⟩

theorem DictLe_trans {d1 d2 d3 : Dict} (h12 : DictLe d1 d2) (h23 : DictLe d2 d3) :
    DictLe d1 d3 := by
  intro k v h
  obtain ⟨w, hw, hvw⟩ := h12 k v h
  obtain ⟨v', hv', hwv'⟩ := h23 k w hw
  exact ⟨v', hv', nvLe_trans hvw hwv'⟩

instance : IsTrans Dict DictLe := ⟨fun _ _ _ => DictLe_trans⟩

theorem update_DictLe (old new : Dict) : DictLe old (update old new) :=
  fun k v h => update_lookup_mono new old k v h

/-! ## Catalog entries and source adapters

A catalog entry carries the per-source identifiers read by the adapters.
The network is embedded as a response oracle per adapter invocation; a
package absent from or malformed in a response is excluded from the
adapter's returned mapping, exactly as in the source.  `asyncio.wait`'s
`done` set is iterated in arbitrary order; the models iterate in task
order, and each place where the order could matter is noted. -/

structure Pkg where
  primary : Option String := none
  url : Option String := none
  github : Option String := none
  gitlab : Option String := none
  arch : Option String := none
  aur : Option String := none
  deriving DecidableEq, Repr

abbrev Pkgs := List (String × Pkg)

/-- Python truthiness of `pkg.get(key)` for string-valued fields. -/
def truthyS : Option String → Bool
  | none => false
  | some s => !(s == "")

def isHexC (c : Char) : Bool :=
  c.isDigit || (c ≥ 'a' && c ≤ 'f') || (c ≥ 'A' && c ≤ 'F')

/-- `git_get_version`: match one ref-advertisement line against
`tag_match`, i.e. hex id, whitespace, `refs/tags/`, then a tag name of
characters other than `/` and `^`, optionally followed by the
dereferenced-annotated-tag suffix `^\x7b\x7d`, anchored at both ends. -/
def git_get_version (line : String) : Option String :=
  let cs := line.toList
  let hex := cs.takeWhile isHexC
  let cs1 := cs.dropWhile isHexC
  if hex.isEmpty then none
  else
    let ws := cs1.takeWhile isSpaceC
    let cs2 := cs1.dropWhile isSpaceC
    if ws.isEmpty then none
    else if ("refs/tags/".toList).isPrefixOf cs2 then
      let cs3 := cs2.drop 10
      let nm := cs3.takeWhile (fun c => !(c == '/' || c == '^'))
      let cs4 := cs3.dropWhile (fun c => !(c == '/' || c == '^'))
      if nm.isEmpty then none
      else if cs4.isEmpty || cs4 == ['^', '\x7b', '\x7d'] then some (String.mk nm)
      else none
    else none

/-- `urlparse(base).scheme`, reduced to what `agit` checks: the lowercased
prefix before the first `:` when it is a well-formed scheme, else `""`. -/
def urlScheme (s : String) : String :=
  let cs := s.toList
  let pre := cs.takeWhile (fun c => !(c == ':'))
  if pre.length < cs.length && !pre.isEmpty &&
      (match pre with | c :: _ => c.isAlpha | [] => false) &&
      pre.all (fun c => c.isAlphanum || c == '+' || c == '-' || c == '.') then
    String.mk (pre.map Char.toLower)
  else ""

/-- `agit` (spelled `def` in the source but using `await`; embedded with the
evident coroutine semantics).  The first loop collects fetch tasks for every
package with a truthy `url` and `primary == "git"` whose scheme is http(s);
`vers` is rebound to an empty set once per such package and `name` leaks out
of the loops.  `asyncio.wait` raises on an empty task list (`none` here).
The second loop adds every response's parsed tags to the single leaked
`vers` set and rebinds `name` to each task's package, so at most one entry
`res[name] = vers[-1]` is written, under the last iterated task's name, with
the maximum over all responses.  The `done` set is iterated in task order
here; the real order is arbitrary, which only changes which single name
receives that combined maximum. -/
def agit (resp : String → List String) (pkgs : Pkgs) : Option Dict :=
  let aws := (pkgs.filter (fun np =>
      truthyS np.2.url && np.2.primary == some "git" &&
      (let sch := urlScheme (np.2.url.getD "")
       sch == "http" || sch == "https"))).map Prod.fst
  if aws.isEmpty then none
  else
    let tags := (aws.map (fun n => (resp n).filterMap git_get_version)).flatten
    let vers := try_parse_versions tags.dedup
    let name := aws.getLast?.getD ""
    some (match vers.getLast? with
          | some v => dictSet [] name v
          | none => [])

/-- `agithub` (and structurally `agitlab`): query every package with a
truthy forge id, extract `x[field]` from each response object having the
field, parse, and store the latest under the package's own name.  Response
objects are embedded as field association lists; iteration order of the
`done` set cannot matter because each task writes its own distinct key. -/
def agithub (resp : String → List (List (String × String))) (field : String)
    (pkgs : Pkgs) : Dict :=
  (pkgs.filter (fun np => truthyS np.2.github)).foldl
    (fun res np =>
      let j := resp np.1
      if j.isEmpty then res
      else
        let vers := try_parse_versions (j.filterMap (fun x => dictLookup x field))
        match vers.getLast? with
        | some v => dictSet res np.1 v
        | none => res)
    []

/-- One record of the distro-index `results` array; only `pkgver` is read. -/
structure ArchResult where
  pkgver : String
  deriving DecidableEq, Repr

/-- `aarch`: query every package (the identifier defaults to the name), take
`results[0]["pkgver"]` when `results` is non-empty, parse, and store
`vers[0]` under the package's own name. -/
def aarch (resp : String → List ArchResult) (pkgs : Pkgs) : Dict :=
  pkgs.foldl
    (fun res np =>
      match resp np.1 with
      | [] => res
      | r0 :: _ =>
        let vers := try_parse_versions [r0.pkgver]
        match vers.head? with
        | some v => dictSet res np.1 v
        | none => res)
    []

/-- The batched aggregator query argument list: `pkg.get("aur", name)` per
item, in catalog order. -/
def aaur_query (pkgs : Pkgs) : List String :=
  pkgs.map (fun np => np.2.aur.getD np.1)

/-- The `for i, v in enumerate(j)` loop of `aaur`.  Each response record is
embedded as its `Version` field, `none` for a `null`/falsy entry; an
out-of-range `items[i]` (`IndexError`) is `none`. -/
def aaurGo (items : Pkgs) : List (Option String) → Nat → Dict → Option Dict
  | [], _, res => some res
  | v :: rest, i, res =>
    match v with
    | none => aaurGo items rest (i + 1) res
    | some s =>
      let vers := try_parse_versions [s]
      match vers.head? with
      | none => aaurGo items rest (i + 1) res
      | some ver =>
        match items[i]? with
        | none => none
        | some item => aaurGo items rest (i + 1) (dictSet res item.1 ver)

/-- `aaur`: one batched request for all items; `results` is the response's
`results` array, positionally aligned with the query (hence with `items`). -/
def aaur (results : List (Option String)) (pkgs : Pkgs) : Option Dict :=
  aaurGo pkgs results 0 []

example :
    aaur [none, some "2.0"] [("x", {}), ("y", {})] = some [("y", ⟨0, [2, 0]⟩)] := by decide
example :
    agit (fun n => if n = "x" then ["aaaa refs/tags/v1.0.0"] else ["bbbb refs/tags/v2.0.0"])
      [("x", { url := some "http://a", primary := some "git" }),
       ("y", { url := some "http://b", primary := some "git" })] =
    some [("y", ⟨0, [2, 0, 0]⟩)] := by decide

/-! ## The resolution orchestrator

The run options that `get_vers` reads (all via Python truthiness) are the
four phase/trust flags; tokens and the diagnostic flags only affect request
headers and stderr output.  A source adapter invocation is abstracted as
`fetch s elig`: what the source registered under name `s` returns on the
eligible packages `elig` (the adapter models above are its instances for
fixed response oracles).  The orchestrator functions additionally return
ghost outputs — the secondary invocation log and the resolved-map state
trace — used to state the temporal claims. -/

structure Args where
  primary : Bool
  secondary : Bool
  trust_primary : Bool
  trust_secondary : Bool
  deriving DecidableEq, Repr

abbrev Fetch := String → Pkgs → Dict

/-- `sources_list`: the only source names iterated by the secondary phase
(the `*_tags` and `git` variants live only in the `sources` dict used to
resolve declared primaries). -/
def sources_list : List String := ["github", "gitlab", "aur", "arch"]

/-- The sort/group key `i[1]["primary"]` (every grouped entry has it). -/
def primKey (np : String × Pkg) : String := np.2.primary.getD ""

/-- `itertools.groupby` by `primKey`: maximal runs of equal keys. -/
def groupRuns : Pkgs → List (String × Pkgs)
  | [] => []
  | np :: rest =>
    match groupRuns rest with
    | [] => [(primKey np, [np])]
    | (k, g) :: gs =>
      if primKey np = k then (k, np :: g) :: gs
      else (primKey np, [np]) :: (k, g) :: gs

/-- One primary group: record the source kind as asked, invoke its source
over exactly the group's packages, merge, and extend the state trace. -/
def primStep (fetch : Fetch) (st : Dict × List String × List Dict)
    (kg : String × Pkgs) : Dict × List String × List Dict :=
  let asked := if kg.1 ∈ st.2.1 then st.2.1 else st.2.1 ++ [kg.1]
  let new := fetch kg.1 kg.2
  let vers := update st.1 new
  (vers, asked, st.2.2 ++ [vers])

/-- `get_primary`: keep the entries declaring a primary, sort them by the
primary source name (Python's stable `sorted`), group consecutive runs,
then invoke each group's source over exactly its packages, merging into
`vers` and recording the source kind as asked.  The third component is the
resolved-map state after each merge. -/
def get_primary (fetch : Fetch) (c : Pkgs) (vers : Dict) :
    Dict × List String × List Dict :=
  let primary := c.filter (fun np => np.2.primary.isSome)
  let primary := List.insertionSort (fun a b => primKey a ≤ primKey b) primary
  (groupRuns primary).foldl (primStep fetch) (vers, [], [])

/-- `get_secondary_source`: invoke source `s` on `left`, merge, then with
trust_secondary recompute `left` from the catalog as the names missing from
`vers`; otherwise leave `left` unchanged. -/
def get_secondary_source (fetch : Fetch) (args : Args) (c : Pkgs) (s : String)
    (vers : Dict) (left : Pkgs) : Dict × Pkgs :=
  let new := fetch s left
  let vers := update vers new
  if args.trust_secondary then
    (vers, c.filter (fun np => (dictLookup vers np.1).isNone))
  else (vers, left)

/-- The `for s in ...:` loop of `run_secondary` with its `if not left:
break`, also returning the invocation log (source name with the eligible
set it was invoked on) and the state trace. -/
def runSources (fetch : Fetch) (args : Args) (c : Pkgs) :
    List String → Dict → Pkgs → Dict × Pkgs × List (String × Pkgs) × List Dict
  | [], vers, left => (vers, left, [], [])
  | s :: ss, vers, left =>
    let r := get_secondary_source fetch args c s vers left
    if r.2.isEmpty then (r.1, r.2, [(s, left)], [r.1])
    else
      let rest := runSources fetch args c ss r.1 r.2
      (rest.1, rest.2.1, (s, left) :: rest.2.2.1, r.1 :: rest.2.2.2)

/-- `run_secondary`: guard on `left`, filter `sources_list` by the pass
predicate `l`, run the loop. -/
def run_secondary (fetch : Fetch) (args : Args) (c : Pkgs) (vers : Dict)
    (asked : List String) (left : Pkgs) (l : String → List String → Bool) :
    Dict × Pkgs × List (String × Pkgs) × List Dict :=
  if left.isEmpty then (vers, left, [], [])
  else runSources fetch args c (sources_list.filter (fun n => l n asked)) vers left

/-- `get_secondary`: two passes over the sources, those not just asked as
primaries first (a deprioritization, not a skip). -/
def get_secondary (fetch : Fetch) (args : Args) (c : Pkgs) (vers : Dict)
    (asked : List String) (left : Pkgs) :
    Dict × Pkgs × List (String × Pkgs) × List Dict :=
  let r1 := run_secondary fetch args c vers asked left
    (fun name asked => !(asked.contains name))
  let r2 := run_secondary fetch args c r1.1 asked r1.2.1
    (fun name asked => asked.contains name)
  (r2.1, r2.2.1, r1.2.2.1 ++ r2.2.2.1, r1.2.2.2 ++ r2.2.2.2)

/-- `get_vers`: primary phase when enabled; `left` is the whole catalog
unless trust_primary restricts it to the names missing from `vers`; then
the secondary phase when enabled and `left` is non-empty.  Returns the
final resolved map, the final `left` (the source stringifies it only for
display), the secondary invocation log, and the state trace from the
initial empty map through every merge. -/
def get_vers (fetch : Fetch) (args : Args) (c : Pkgs) :
    Dict × Pkgs × List (String × Pkgs) × List Dict :=
  let pr := if args.primary then get_primary fetch c [] else ([], [], [])
  let vers1 := pr.1
  let asked := pr.2.1
  let left :=
    if args.trust_primary then c.filter (fun np => (dictLookup vers1 np.1).isNone)
    else c
  if args.secondary && !left.isEmpty then
    let r := get_secondary fetch args c vers1 asked left
    (r.1, r.2.1, r.2.2.1, ([] : Dict) :: (pr.2.2 ++ r.2.2.2))
  else (vers1, left, [], ([] : Dict) :: pr.2.2)

/-! ## Option reading and the command-line entry point -/

/-- A TOML option value as far as the engine consumes one. -/
inductive Val
  | vB (b : Bool)
  | vS (s : String)
  deriving DecidableEq, Repr

/-- Python truthiness of a possibly-missing option value. -/
def truthyV : Option Val → Bool
  | none => false
  | some (.vB b) => b
  | some (.vS s) => !(s == "")

/-- The `defaults` table (tokens have no default and stay `None`). -/
def defaults : List (String × Val) :=
  [("primary", .vB true), ("secondary", .vB true), ("trust_primary", .vB true),
   ("trust_secondary", .vB true), ("print_names", .vB false), ("quiet", .vB false)]

/-- `read_config(args, config)`: raise `KeyError` on the first config key
that is not an option of `args` (the fatal configuration error), then fill
every option the command line left as `None` from the document, falling
back to the defaults. -/
def read_config (args : List (String × Option Val)) (config : List (String × Val)) :
    Except String (List (String × Option Val)) :=
  match config.find? (fun kv => (dictLookup args kv.1).isNone) with
  | some kv => Except.error kv.1
  | none =>
    Except.ok (args.map (fun kv =>
      (kv.1, match kv.2 with
             | some v => some v
             | none =>
               match dictLookup config kv.1 with
               | some v => some v
               | none => dictLookup defaults kv.1)))

/-- The `kwargs` dict `click` passes to `cli`: exactly these eight option
keys, each `None` unless set on the command line.  Its key set is the
allow-list `read_config` validates against. -/
def cli_kwargs (github_token gitlab_token primary secondary trust_primary
    trust_secondary print_names quiet : Option Val) : List (String × Option Val) :=
  [("github_token", github_token), ("gitlab_token", gitlab_token),
   ("primary", primary), ("secondary", secondary),
   ("trust_primary", trust_primary), ("trust_secondary", trust_secondary),
   ("print_names", print_names), ("quiet", quiet)]

/-- The parsed configuration document: the optional `johnny_config` options
block, and the package tables (the source deletes the block from the dict
before passing it on; the two parts are kept separate here). -/
structure ConfigDoc where
  johnny_config : List (String × Val)
  packages : Pkgs

/-- `cli`: read the options — a `KeyError` escapes before anything is
fetched — then build the flag set `get_vers` reads (each flag via Python
truthiness of the filled option), run the engine, and return the resolved
map, the final `left` (non-empty means exit status 1), and the secondary
invocation log (empty in the error case: nothing was invoked). -/
def cli (fetch : Fetch) (doc : ConfigDoc)
    (github_token gitlab_token primary secondary trust_primary
      trust_secondary print_names quiet : Option Val) :
    Except String (Dict × Pkgs × List (String × Pkgs)) :=
  let kwargs := cli_kwargs github_token gitlab_token primary secondary
    trust_primary trust_secondary print_names quiet
  match read_config kwargs doc.johnny_config with
  | .error e => .error e
  | .ok kw =>
    let args : Args :=
      { primary := truthyV ((dictLookup kw "primary").getD none)
        secondary := truthyV ((dictLookup kw "secondary").getD none)
        trust_primary := truthyV ((dictLookup kw "trust_primary").getD none)
        trust_secondary := truthyV ((dictLookup kw "trust_secondary").getD none) }
    let r := get_vers fetch args doc.packages
    .ok (r.1, r.2.1, r.2.2.1)

/-! ## Claims -/

theorem updateStep_lookup_self (old : Dict) (k : String) (v : NVersion) :
    dictLookup (updateStep old (k, v)) k =
      some (match dictLookup old k with
            | none => v
            | some ov => if nvLt ov v then v else ov) := by
  unfold updateStep
  dsimp only
  cases hov : dictLookup old k with
  | none => simp [dictLookup_dictSet_self]
  | some ov =>
    by_cases hlt : nvLt ov v = true
    · simp [hlt, dictLookup_dictSet_self]
    · rw [Bool.not_eq_true] at hlt
      simp [hlt, hov]

/-- C1: for every key `k` of `new`, `update old new` inserts `new[k]` when
`k` is absent from `old`, and otherwise replaces the value exactly when
`new[k]` is strictly greater under the version order — on a tie the old
value is kept. -/
theorem C1_merge_policy (old new : Dict) (k : String) (v : NVersion)
    (hmem : dictLookup new k = some v) (hnd : (new.map Prod.fst).Nodup) :
    (dictLookup old k = none → dictLookup (update old new) k = some v) ∧
    (∀ ov, dictLookup old k = some ov →
      dictLookup (update old new) k = some (if nvLt ov v then v else ov)) := by
  induction new generalizing old with
  | nil => cases hmem
  | cons kv rest ih =>
    obtain ⟨k1, v1⟩ := kv
    rw [update_cons]
    simp only [List.map_cons, List.nodup_cons] at hnd
    by_cases hk : k1 = k
    · subst hk
      simp only [dictLookup, if_pos rfl] at hmem
      obtain rfl : v1 = v := Option.some_inj.mp hmem
      rw [update_lookup_not_mem rest _ k1 hnd.1, updateStep_lookup_self]
      constructor
      · intro hold
        rw [hold]
      · intro ov hov
        rw [hov]
    · simp only [dictLookup, if_neg hk] at hmem
      have := ih (updateStep old (k1, v1)) hmem hnd.2
      rw [updateStep_lookup_ne old (k1, v1) k hk] at this
      exact this

theorem C1_merge_policy_witness :
    (dictLookup [("a", NVersion.mk 0 [1])] "b" = none →
      dictLookup (update [("a", NVersion.mk 0 [1])]
        [("a", NVersion.mk 0 [2]), ("b", NVersion.mk 0 [3])]) "b" = some ⟨0, [3]⟩) ∧
    (∀ ov, dictLookup [("a", NVersion.mk 0 [1])] "b" = some ov →
      dictLookup (update [("a", NVersion.mk 0 [1])]
        [("a", NVersion.mk 0 [2]), ("b", NVersion.mk 0 [3])]) "b" =
        some (if nvLt ov ⟨0, [3]⟩ then ⟨0, [3]⟩ else ov)) :=
  C1_merge_policy [("a", ⟨0, [1]⟩)] [("a", ⟨0, [2]⟩), ("b", ⟨0, [3]⟩)] "b" ⟨0, [3]⟩
    (by decide) (by decide)

/-- C5: the parser returns exactly the successfully parsed, normalized
records (a permutation of the per-string results of `parseNorm`), sorted
ascending under the version order; in particular on
`["1.0.0", "1.2.0", "0.9.0"]` it returns `[0.9.0, 1.0.0, 1.2.0]` and the
latest (last) element is `1.2.0`. -/
theorem C5_parser_sorted (vs : List String) :
    (try_parse_versions vs).Perm (vs.filterMap parseNorm) ∧
    List.Sorted nvLeR (try_parse_versions vs) ∧
    try_parse_versions ["1.0.0", "1.2.0", "0.9.0"] =
      [⟨0, [0, 9, 0]⟩, ⟨0, [1, 0, 0]⟩, ⟨0, [1, 2, 0]⟩] ∧
    (try_parse_versions ["1.0.0", "1.2.0", "0.9.0"]).getLast? = some ⟨0, [1, 2, 0]⟩ :=
  ⟨List.perm_insertionSort nvLeR _, List.sorted_insertionSort nvLeR _,
    by decide, by decide⟩

/-- C6 counterexample: the claimed strict order fails — after the parser's
normalization, `"1.2.3rc1"` and `"1.2.3"` denote the same value, so the
first does not compare strictly below the second. -/
theorem C6_counterexample :
    parseNorm "1.2.3rc1" = some ⟨0, [1, 2, 3]⟩ ∧
    parseNorm "1.2.3" = some ⟨0, [1, 2, 3]⟩ ∧
    nvLt ⟨0, [1, 2, 3]⟩ ⟨0, [1, 2, 3]⟩ = false := by decide

/-- C6 amended: the parser does recognize the pre-release qualifier of
`"1.2.3rc1"`, but normalization reduces to the base version, which drops
pre-release (and post/dev) information along with build metadata; the two
strings therefore normalize identically and compare equal, not strictly
less. -/
theorem C6_amended_normalization_drops_pre :
    (parseVersion "1.2.3rc1").map PyVersion.pre = some (some ("rc", 1)) ∧
    parseNorm "1.2.3rc1" = some ⟨0, [1, 2, 3]⟩ ∧
    parseNorm "1.2.3" = some ⟨0, [1, 2, 3]⟩ ∧
    nvCmp ⟨0, [1, 2, 3]⟩ ⟨0, [1, 2, 3]⟩ = .eq := by decide

theorem dictLookup_mem {α : Type} (d : List (String × α)) (k : String) (v : α)
    (h : dictLookup d k = some v) : (k, v) ∈ d := by
  induction d with
  | nil => cases h
  | cons kv rest ih =>
    obtain ⟨k', v'⟩ := kv
    by_cases hk : k' = k
    · subst hk
      simp only [dictLookup, if_pos rfl] at h
      obtain rfl := Option.some_inj.mp h
      exact List.mem_cons_self _ _
    · simp only [dictLookup, if_neg hk] at h
      exact List.mem_cons_of_mem _ (ih h)

theorem foldl_dictSet_keys (f : Dict → String × Pkg → Dict)
    (hf : ∀ res np k, k ∈ (f res np).map Prod.fst → k = np.1 ∨ k ∈ res.map Prod.fst) :
    ∀ (l : Pkgs) (acc : Dict) (k : String),
      k ∈ (l.foldl f acc).map Prod.fst → k ∈ acc.map Prod.fst ∨ k ∈ l.map Prod.fst := by
  intro l
  induction l with
  | nil => exact fun acc k h => Or.inl h
  | cons np rest ih =>
    intro acc k h
    rcases ih (f acc np) k h with h2 | h2
    · rcases hf acc np k h2 with h3 | h3
      · exact Or.inr (by simp [h3])
      · exact Or.inl h3
    · exact Or.inr (by simp [h2])

theorem agithub_keys (resp : String → List (List (String × String))) (field : String)
    (pkgs : Pkgs) (k : String) (h : k ∈ (agithub resp field pkgs).map Prod.fst) :
    k ∈ pkgs.map Prod.fst := by
  unfold agithub at h
  have hf : ∀ (res : Dict) (np : String × Pkg) (k2 : String),
      k2 ∈ ((fun (res : Dict) (np : String × Pkg) =>
        let j := resp np.1
        if j.isEmpty then res
        else
          let vers := try_parse_versions (j.filterMap (fun x => dictLookup x field))
          match vers.getLast? with
          | some v => dictSet res np.1 v
          | none => res) res np).map Prod.fst →
      k2 = np.1 ∨ k2 ∈ res.map Prod.fst := by
    intro res np k2 h2
    dsimp only at h2
    by_cases hj : (resp np.1).isEmpty
    · rw [if_pos hj] at h2
      exact Or.inr h2
    · rw [if_neg hj] at h2
      cases hl : (try_parse_versions ((resp np.1).filterMap
          (fun x => dictLookup x field))).getLast? with
      | none => rw [hl] at h2; exact Or.inr h2
      | some v => rw [hl] at h2; exact dictSet_keys_subset res np.1 k2 v h2
  rcases foldl_dictSet_keys _ hf _ [] k h with h2 | h2
  · cases h2
  · obtain ⟨np, hmem, hfst⟩ := List.mem_map.mp h2
    exact List.mem_map.mpr ⟨np, (List.mem_filter.mp hmem).1, hfst⟩

theorem aarch_keys (resp : String → List ArchResult) (pkgs : Pkgs) (k : String)
    (h : k ∈ (aarch resp pkgs).map Prod.fst) : k ∈ pkgs.map Prod.fst := by
  unfold aarch at h
  have hf : ∀ (res : Dict) (np : String × Pkg) (k2 : String),
      k2 ∈ ((fun (res : Dict) (np : String × Pkg) =>
        match resp np.1 with
        | [] => res
        | r0 :: _ =>
          let vers := try_parse_versions [r0.pkgver]
          match vers.head? with
          | some v => dictSet res np.1 v
          | none => res) res np).map Prod.fst →
      k2 = np.1 ∨ k2 ∈ res.map Prod.fst := by
    intro res np k2 h2
    dsimp only at h2
    cases hr : resp np.1 with
    | nil => rw [hr] at h2; exact Or.inr h2
    | cons r0 rs =>
      rw [hr] at h2
      dsimp only at h2
      cases hl : (try_parse_versions [r0.pkgver]).head? with
      | none => rw [hl] at h2; exact Or.inr h2
      | some v => rw [hl] at h2; exact dictSet_keys_subset res np.1 k2 v h2
  rcases foldl_dictSet_keys _ hf _ [] k h with h2 | h2
  · cases h2
  · exact h2

theorem aaurGo_keys (items : Pkgs) :
    ∀ (rs : List (Option String)) (i : Nat) (res final : Dict),
      aaurGo items rs i res = some final →
      ∀ k, k ∈ final.map Prod.fst → k ∈ res.map Prod.fst ∨ k ∈ items.map Prod.fst := by
  intro rs
  induction rs with
  | nil =>
    intro i res final hgo k hk
    simp only [aaurGo] at hgo
    obtain rfl := Option.some_inj.mp hgo
    exact Or.inl hk
  | cons v rest ih =>
    intro i res final hgo k hk
    simp only [aaurGo] at hgo
    cases v with
    | none => exact ih (i + 1) res final hgo k hk
    | some s =>
      dsimp only at hgo
      cases hh : (try_parse_versions [s]).head? with
      | none =>
        rw [hh] at hgo
        exact ih (i + 1) res final hgo k hk
      | some ver =>
        rw [hh] at hgo
        cases hi : items[i]? with
        | none => rw [hi] at hgo; cases hgo
        | some item =>
          rw [hi] at hgo
          rcases ih (i + 1) (dictSet res item.1 ver) final hgo k hk with h2 | h2
          · rcases dictSet_keys_subset res item.1 k ver h2 with h3 | h3
            · exact Or.inr (List.mem_map.mpr ⟨item, List.getElem?_mem hi, h3.symm⟩)
            · exact Or.inl h3
          · exact Or.inr h2

theorem agit_keys (resp : String → List String) (pkgs : Pkgs) (res : Dict)
    (h : agit resp pkgs = some res) (k : String) (hk : k ∈ res.map Prod.fst) :
    k ∈ pkgs.map Prod.fst := by
  unfold agit at h
  set aws := (pkgs.filter (fun np =>
      truthyS np.2.url && np.2.primary == some "git" &&
      (let sch := urlScheme (np.2.url.getD "")
       sch == "http" || sch == "https"))).map Prod.fst with haws
  by_cases he : aws.isEmpty
  · rw [if_pos he] at h
    cases h
  · rw [if_neg he] at h
    dsimp only at h
    cases hl : (try_parse_versions
        ((aws.map (fun n => (resp n).filterMap git_get_version)).flatten).dedup).getLast? with
    | none =>
      rw [hl] at h
      obtain rfl := Option.some_inj.mp h
      cases hk
    | some v =>
      rw [hl] at h
      obtain rfl := Option.some_inj.mp h
      simp only [dictSet, List.map_cons, List.map_nil, List.mem_singleton] at hk
      subst hk
      have hne : aws ≠ [] := by
        intro hnil
        rw [hnil] at he
        exact he rfl
      obtain ⟨x, hx⟩ := Option.isSome_iff_exists.mp (List.getLast?_isSome.mpr hne)
      have hmem : x ∈ aws := List.mem_of_mem_getLast? hx
      rw [hx]
      simp only [Option.getD_some]
      rw [haws] at hmem
      obtain ⟨np, hnp, hfst⟩ := List.mem_map.mp hmem
      exact List.mem_map.mpr ⟨np, (List.mem_filter.mp hnp).1, hfst⟩

/-- C10: no adapter introduces names outside its input — every key of the
mapping returned by `agithub`, `aarch`, `aaur` or `agit` is a package name
of the eligible-package mapping it received. -/
theorem C10_adapters_return_own_names
    (respGh : String → List (List (String × String))) (field : String)
    (respAr : String → List ArchResult) (results : List (Option String))
    (respGit : String → List String) (pkgs : Pkgs) :
    (∀ k ∈ (agithub respGh field pkgs).map Prod.fst, k ∈ pkgs.map Prod.fst) ∧
    (∀ k ∈ (aarch respAr pkgs).map Prod.fst, k ∈ pkgs.map Prod.fst) ∧
    (∀ res, aaur results pkgs = some res →
      ∀ k ∈ res.map Prod.fst, k ∈ pkgs.map Prod.fst) ∧
    (∀ res, agit respGit pkgs = some res →
      ∀ k ∈ res.map Prod.fst, k ∈ pkgs.map Prod.fst) := by
  refine ⟨fun k hk => agithub_keys respGh field pkgs k hk,
          fun k hk => aarch_keys respAr pkgs k hk,
          fun res hres k hk => ?_,
          fun res hres k hk => agit_keys respGit pkgs res hres k hk⟩
  rcases aaurGo_keys pkgs results 0 [] res hres k hk with h | h
  · cases h
  · exact h

theorem C10_adapters_return_own_names_witness :
    (∀ k ∈ (agithub (fun _ => [[("tag_name", "v1.0")]]) "tag_name"
        [("p", { github := some "o/r" })]).map Prod.fst,
      k ∈ [("p", Pkg.mk none none (some "o/r") none none none)].map Prod.fst) ∧
    (∀ k ∈ (aarch (fun _ => [⟨"1.0"⟩]) [("p", { github := some "o/r" })]).map Prod.fst,
      k ∈ [("p", Pkg.mk none none (some "o/r") none none none)].map Prod.fst) ∧
    (∀ res, aaur [some "1.0"] [("p", { github := some "o/r" })] = some res →
      ∀ k ∈ res.map Prod.fst,
        k ∈ [("p", Pkg.mk none none (some "o/r") none none none)].map Prod.fst) ∧
    (∀ res, agit (fun _ => []) [("p", { github := some "o/r" })] = some res →
      ∀ k ∈ res.map Prod.fst,
        k ∈ [("p", Pkg.mk none none (some "o/r") none none none)].map Prod.fst) :=
  C10_adapters_return_own_names (fun _ => [[("tag_name", "v1.0")]]) "tag_name"
    (fun _ => [⟨"1.0"⟩]) [some "1.0"] (fun _ => []) [("p", { github := some "o/r" })]

/-- C8: code-bug witness.  With two eligible http(s) `git`-primary packages
each advertising one parseable tag, `agit` returns a single entry — the
maximum over both packages' tags filed under the leaked last package name —
although each package's own response had its own parseable tag. -/
theorem C8_agit_scoping_defect :
    agit (fun n => if n = "x" then ["aaaa refs/tags/v1.0.0"] else ["bbbb refs/tags/v2.0.0"])
      [("x", { url := some "http://a", primary := some "git" }),
       ("y", { url := some "http://b", primary := some "git" })] =
      some [("y", ⟨0, [2, 0, 0]⟩)] ∧
    git_get_version "aaaa refs/tags/v1.0.0" = some "v1.0.0" ∧
    parseNorm "v1.0.0" = some ⟨0, [1, 0, 0]⟩ := by decide

/-- The candidate a single aggregator response record contributes:
`try_parse_versions([record["Version"]])[0]` when parseable. -/
def aurCand (s : String) : Option NVersion := (try_parse_versions [s]).head?

theorem items_names_ne (items : Pkgs) (hnd : (items.map Prod.fst).Nodup)
    {i j : Nat} {n : String} {p q : Pkg} (hij : i ≠ j)
    (hi : items[i]? = some (n, p)) (hj : items[j]? = some (n, q)) : False := by
  have hi' : (items.map Prod.fst)[i]? = some n := by
    rw [List.getElem?_map, hi]
    rfl
  have hj' : (items.map Prod.fst)[j]? = some n := by
    rw [List.getElem?_map, hj]
    rfl
  obtain ⟨hil, ei⟩ := List.getElem?_eq_some_iff.mp hi'
  obtain ⟨hjl, ej⟩ := List.getElem?_eq_some_iff.mp hj'
  exact hij ((List.Nodup.getElem_inj_iff hnd).mp (ei.trans ej.symm))


theorem aaurGo_spec (items : Pkgs) (hnd : (items.map Prod.fst).Nodup) :
    ∀ (rs : List (Option String)) (i : Nat) (res : Dict),
      i + rs.length ≤ items.length →
      (∀ j n p, i ≤ j → items[j]? = some (n, p) → dictLookup res n = none) →
      ∃ final, aaurGo items rs i res = some final ∧
        (∀ j n p, i ≤ j → items[j]? = some (n, p) →
          dictLookup final n = ((rs[j - i]?).getD none).bind aurCand) ∧
        (∀ n, (∀ j p, i ≤ j → items[j]? ≠ some (n, p)) →
          dictLookup final n = dictLookup res n) := by
  intro rs
  induction rs with
  | nil =>
    intro i res hlen hacc
    refine ⟨res, rfl, ?_, fun n _ => rfl⟩
    intro j n p hij hj
    simp only [List.getElem?_nil, Option.getD_none, Option.none_bind]
    exact hacc j n p hij hj
  | cons r rest ih =>
    intro i res hlen hacc
    have hlen' : i + 1 + rest.length ≤ items.length := by
      simp only [List.length_cons] at hlen
      omega
    -- the two skip branches (null record, unparseable version) share this
    have hskip : r.bind aurCand = none →
        ∃ final, aaurGo items rest (i + 1) res = some final ∧
          (∀ j n p, i ≤ j → items[j]? = some (n, p) →
            dictLookup final n = (((r :: rest)[j - i]?).getD none).bind aurCand) ∧
          (∀ n, (∀ j p, i ≤ j → items[j]? ≠ some (n, p)) →
            dictLookup final n = dictLookup res n) := by
      intro hcnone
      obtain ⟨final, hgo, A, B⟩ := ih (i + 1) res hlen'
        (fun j n p hij hj => hacc j n p (by omega) hj)
      refine ⟨final, hgo, ?_, ?_⟩
      · intro j n p hij hj
        by_cases hji : j = i
        · subst hji
          simp only [Nat.sub_self, List.getElem?_cons_zero, Option.getD_some]
          rw [hcnone, B n (fun j' p' hij' hj' =>
            items_names_ne items hnd (by omega) hj' hj)]
          exact hacc j n p (le_refl j) hj
        · have hsub : j - i = (j - (i + 1)) + 1 := by omega
          rw [hsub, List.getElem?_cons_succ]
          exact A j n p (by omega) hj
      · intro n hn
        exact B n (fun j p hij hj => hn j p (by omega) hj)
    cases r with
    | none =>
      simp only [aaurGo]
      exact hskip rfl
    | some s =>
      simp only [aaurGo]
      cases hcand : (try_parse_versions [s]).head? with
      | none => exact hskip (by simp [aurCand, hcand])
      | some ver =>
        have hilen : i < items.length := by
          simp only [List.length_cons] at hlen
          omega
        set item := items[i] with hdef
        have hitem : items[i]? = some item := List.getElem?_eq_getElem hilen
        rw [hitem]
        have hacc' : ∀ j n p, i + 1 ≤ j → items[j]? = some (n, p) →
            dictLookup (dictSet res item.1 ver) n = none := by
          intro j n p hij hj
          have hne : item.1 ≠ n := by
            intro he
            have hthis : items[i]? = some (item.1, item.2) := by rw [hitem]
            rw [he] at hthis
            exact items_names_ne items hnd (show i ≠ j by omega) hthis hj
          rw [dictLookup_dictSet_ne res ver hne]
          exact hacc j n p (by omega) hj
        obtain ⟨final, hgo, A, B⟩ := ih (i + 1) (dictSet res item.1 ver) hlen' hacc'
        refine ⟨final, hgo, ?_, ?_⟩
        · intro j n p hij hj
          by_cases hji : j = i
          · subst hji
            simp only [Nat.sub_self, List.getElem?_cons_zero, Option.getD_some,
              Option.some_bind]
            have hip : (n, p) = item := Option.some_inj.mp (hj.symm.trans hitem)
            have hn : n = item.1 := by rw [← hip]
            rw [B n (fun j' p' hij' hj' =>
              items_names_ne items hnd (by omega) hj' hj), hn,
              dictLookup_dictSet_self, aurCand, hcand]
          · have hsub : j - i = (j - (i + 1)) + 1 := by omega
            rw [hsub, List.getElem?_cons_succ]
            exact A j n p (by omega) hj
        · intro n hn
          rw [B n (fun j p hij hj => hn j p (by omega) hj)]
          have hne : item.1 ≠ n := by
            intro he
            have hthis : items[i]? = some (item.1, item.2) := by rw [hitem]
            rw [he] at hthis
            exact hn i item.2 (le_refl i) hthis
          exact dictLookup_dictSet_ne res ver hne

/-- C7: the batched aggregator adapter preserves positional alignment
between the query order and the response array: the j-th queried package's
entry is exactly the parse of the j-th response record (a null or absent
record excludes only that package); in particular for query order
`["x","y"]` and response `[null, Version "2.0"]`, the result maps only
`"y"`, to `2.0`. -/
theorem C7_aaur_alignment (pkgs : Pkgs) (results : List (Option String))
    (hnd : (pkgs.map Prod.fst).Nodup) (hlen : results.length ≤ pkgs.length) :
    (∃ res, aaur results pkgs = some res ∧
      ∀ (j : Nat) (n : String) (p : Pkg), pkgs[j]? = some (n, p) →
        dictLookup res n = ((results[j]?).getD none).bind aurCand) ∧
    aaur [none, some "2.0"] [("x", {}), ("y", {})] = some [("y", ⟨0, [2, 0]⟩)] := by
  refine ⟨?_, by decide⟩
  obtain ⟨final, hgo, A, B⟩ := aaurGo_spec pkgs hnd results 0 []
    (by omega) (fun j n p _ _ => rfl)
  refine ⟨final, hgo, fun j n p hj => ?_⟩
  simpa using A j n p (Nat.zero_le j) hj

theorem C7_aaur_alignment_witness :
    (∃ res, aaur [none, some "2.0"] [("x", {}), ("y", {})] = some res ∧
      ∀ (j : Nat) (n : String) (p : Pkg), [("x", ({} : Pkg)), ("y", ({} : Pkg))][j]? = some (n, p) →
        dictLookup res n =
          ((([none, some "2.0"] : List (Option String))[j]?).getD none).bind aurCand) ∧
    aaur [none, some "2.0"] [("x", {}), ("y", {})] = some [("y", ⟨0, [2, 0]⟩)] :=
  C7_aaur_alignment [("x", {}), ("y", {})] [none, some "2.0"] (by decide) (by decide)

/-- The fixed allow-list of run options: exactly the keys of the `kwargs`
dict that `click` hands to `cli`. -/
def option_allowlist : List String :=
  ["github_token", "gitlab_token", "primary", "secondary",
   "trust_primary", "trust_secondary", "print_names", "quiet"]

theorem cli_kwargs_lookup_none (t1 t2 o1 o2 o3 o4 o5 o6 : Option Val) (k : String) :
    (dictLookup (cli_kwargs t1 t2 o1 o2 o3 o4 o5 o6) k).isNone = true ↔
      k ∉ option_allowlist := by
  simp only [cli_kwargs, dictLookup, option_allowlist]
  split_ifs with h1 h2 h3 h4 h5 h6 h7 h8 <;> simp_all
  exact ⟨fun h => h1 h.symm, fun h => h2 h.symm, fun h => h3 h.symm,
    fun h => h4 h.symm, fun h => h5 h.symm, fun h => h6 h.symm,
    fun h => h7 h.symm, fun h => h8 h.symm⟩

/-- C9: an options block containing a key outside the allow-list makes the
run fail with a configuration error naming an offending block key, and the
outcome is the same for every fetch oracle — no source adapter is invoked
before the error. -/
theorem C9_unknown_option_fatal (fetch : Fetch) (doc : ConfigDoc)
    (t1 t2 o1 o2 o3 o4 o5 o6 : Option Val) (k : String)
    (hk : k ∈ doc.johnny_config.map Prod.fst) (hbad : k ∉ option_allowlist) :
    (∃ bad, bad ∈ doc.johnny_config.map Prod.fst ∧ bad ∉ option_allowlist ∧
      cli fetch doc t1 t2 o1 o2 o3 o4 o5 o6 = .error bad) ∧
    (∀ fetch2, cli fetch2 doc t1 t2 o1 o2 o3 o4 o5 o6 =
      cli fetch doc t1 t2 o1 o2 o3 o4 o5 o6) := by
  obtain ⟨kv0, hkv0mem, hkfst⟩ := List.mem_map.mp hk
  have hpred : (dictLookup (cli_kwargs t1 t2 o1 o2 o3 o4 o5 o6) kv0.1).isNone = true := by
    rw [cli_kwargs_lookup_none]
    rw [hkfst]
    exact hbad
  have hsome : (doc.johnny_config.find?
      (fun kv => (dictLookup (cli_kwargs t1 t2 o1 o2 o3 o4 o5 o6) kv.1).isNone)).isSome :=
    List.find?_isSome.mpr ⟨kv0, hkv0mem, hpred⟩
  obtain ⟨bad, hbad2⟩ := Option.isSome_iff_exists.mp hsome
  have hbadmem : bad ∈ doc.johnny_config := List.mem_of_find?_eq_some hbad2
  have hbadpred := List.find?_some hbad2
  have hcli : ∀ f : Fetch, cli f doc t1 t2 o1 o2 o3 o4 o5 o6 = .error bad.1 := by
    intro f
    unfold cli
    dsimp only
    unfold read_config
    rw [hbad2]
  refine ⟨⟨bad.1, List.mem_map.mpr ⟨bad, hbadmem, rfl⟩, ?_, hcli fetch⟩, ?_⟩
  · rw [← cli_kwargs_lookup_none t1 t2 o1 o2 o3 o4 o5 o6]
    exact hbadpred
  · intro fetch2
    rw [hcli fetch2, hcli fetch]

theorem C9_unknown_option_fatal_witness :
    (∃ bad, bad ∈ (ConfigDoc.mk [("bogus", Val.vB true)] []).johnny_config.map Prod.fst ∧
      bad ∉ option_allowlist ∧
      cli (fun _ _ => []) (ConfigDoc.mk [("bogus", Val.vB true)] [])
        none none none none none none none none = .error bad) ∧
    (∀ fetch2, cli fetch2 (ConfigDoc.mk [("bogus", Val.vB true)] [])
        none none none none none none none none =
      cli (fun _ _ => []) (ConfigDoc.mk [("bogus", Val.vB true)] [])
        none none none none none none none none) :=
  C9_unknown_option_fatal (fun _ _ => []) (ConfigDoc.mk [("bogus", Val.vB true)] [])
    none none none none none none none none "bogus" (by decide) (by decide)

/-! ### Orchestrator lemmas -/

theorem update_isSome (old new : Dict) (k : String)
    (h : (dictLookup old k).isSome = true) :
    (dictLookup (update old new) k).isSome = true := by
  obtain ⟨v, hv⟩ := Option.isSome_iff_exists.mp h
  obtain ⟨v', hv', _⟩ := update_lookup_mono new old k v hv
  rw [hv']
  rfl

theorem gss_fst (fetch : Fetch) (args : Args) (c : Pkgs) (s : String)
    (vers : Dict) (left : Pkgs) :
    (get_secondary_source fetch args c s vers left).1 = update vers (fetch s left) := by
  unfold get_secondary_source
  by_cases h : args.trust_secondary = true <;> simp [h]

theorem gss_resolved_stays (fetch : Fetch) (args : Args) (c : Pkgs) (s : String)
    (vers : Dict) (left : Pkgs) (P : String)
    (hvers : (dictLookup vers P).isSome = true) (hleft : P ∉ left.map Prod.fst) :
    (dictLookup (get_secondary_source fetch args c s vers left).1 P).isSome = true ∧
    P ∉ (get_secondary_source fetch args c s vers left).2.map Prod.fst := by
  have h1 : (dictLookup (get_secondary_source fetch args c s vers left).1 P).isSome = true := by
    rw [gss_fst]
    exact update_isSome vers (fetch s left) P hvers
  refine ⟨h1, ?_⟩
  unfold get_secondary_source
  by_cases h : args.trust_secondary = true
  · rw [h, if_pos rfl]
    dsimp only
    intro hmem
    obtain ⟨np, hnp, hfst⟩ := List.mem_map.mp hmem
    have hpred := (List.mem_filter.mp hnp).2
    rw [hfst] at hpred
    have : (dictLookup (update vers (fetch s left)) P).isSome = true :=
      update_isSome vers (fetch s left) P hvers
    rw [Option.isNone_iff_eq_none] at hpred
    rw [hpred] at this
    cases this
  · rw [Bool.not_eq_true] at h
    rw [h, if_neg (by simp)]
    exact hleft

theorem runSources_resolved (fetch : Fetch) (args : Args) (c : Pkgs) :
    ∀ (ss : List String) (vers : Dict) (left : Pkgs) (P : String),
      (dictLookup vers P).isSome = true → P ∉ left.map Prod.fst →
      (∀ e ∈ (runSources fetch args c ss vers left).2.2.1, P ∉ e.2.map Prod.fst) ∧
      (dictLookup (runSources fetch args c ss vers left).1 P).isSome = true ∧
      P ∉ (runSources fetch args c ss vers left).2.1.map Prod.fst := by
  intro ss
  induction ss with
  | nil =>
    intro vers left P hvers hleft
    exact ⟨fun e he => absurd he (by simp [runSources]), hvers, hleft⟩
  | cons s ss ih =>
    intro vers left P hvers hleft
    obtain ⟨h1, h2⟩ := gss_resolved_stays fetch args c s vers left P hvers hleft
    simp only [runSources]
    by_cases hemp : (get_secondary_source fetch args c s vers left).2.isEmpty = true
    · rw [if_pos hemp]
      refine ⟨?_, h1, h2⟩
      intro e he
      simp only [List.mem_singleton] at he
      subst he
      exact hleft
    · rw [if_neg hemp]
      obtain ⟨ih1, ih2, ih3⟩ := ih (get_secondary_source fetch args c s vers left).1
        (get_secondary_source fetch args c s vers left).2 P h1 h2
      refine ⟨?_, ih2, ih3⟩
      intro e he
      simp only [List.mem_cons] at he
      rcases he with he | he
      · subst he
        exact hleft
      · exact ih1 e he

theorem run_secondary_resolved (fetch : Fetch) (args : Args) (c : Pkgs)
    (vers : Dict) (asked : List String) (left : Pkgs)
    (l : String → List String → Bool) (P : String)
    (hvers : (dictLookup vers P).isSome = true) (hleft : P ∉ left.map Prod.fst) :
    (∀ e ∈ (run_secondary fetch args c vers asked left l).2.2.1, P ∉ e.2.map Prod.fst) ∧
    (dictLookup (run_secondary fetch args c vers asked left l).1 P).isSome = true ∧
    P ∉ (run_secondary fetch args c vers asked left l).2.1.map Prod.fst := by
  unfold run_secondary
  by_cases hemp : left.isEmpty = true
  · rw [if_pos hemp]
    exact ⟨fun e he => absurd he (by simp), hvers, hleft⟩
  · rw [if_neg hemp]
    exact runSources_resolved fetch args c _ vers left P hvers hleft

theorem get_secondary_resolved (fetch : Fetch) (args : Args) (c : Pkgs)
    (vers : Dict) (asked : List String) (left : Pkgs) (P : String)
    (hvers : (dictLookup vers P).isSome = true) (hleft : P ∉ left.map Prod.fst) :
    ∀ e ∈ (get_secondary fetch args c vers asked left).2.2.1, P ∉ e.2.map Prod.fst := by
  unfold get_secondary
  dsimp only
  obtain ⟨h1, h2, h3⟩ := run_secondary_resolved fetch args c vers asked left
    (fun name asked => !(asked.contains name)) P hvers hleft
  obtain ⟨h4, _, _⟩ := run_secondary_resolved fetch args c _ asked _
    (fun name asked => asked.contains name) P h2 h3
  intro e he
  rcases List.mem_append.mp he with he | he
  · exact h1 e he
  · exact h4 e he

theorem not_mem_filter_isNone (vers : Dict) (c : Pkgs) (P : String)
    (h : (dictLookup vers P).isSome = true) :
    P ∉ (c.filter (fun np => (dictLookup vers np.1).isNone)).map Prod.fst := by
  intro hmem
  obtain ⟨np, hnp, hfst⟩ := List.mem_map.mp hmem
  have hpred := (List.mem_filter.mp hnp).2
  rw [hfst] at hpred
  rw [Option.isNone_iff_eq_none] at hpred
  rw [hpred] at h
  cases h

/-- C3: if package `P` declares a primary source kind, trust_primary is
enabled, the primary phase runs and resolves `P`, then no secondary-phase
adapter invocation carries `P` in its eligible-package set. -/
theorem C3_trust_primary_short_circuit (fetch : Fetch) (args : Args) (c : Pkgs)
    (P : String) (p : Pkg)
    (hdecl : dictLookup c P = some p) (hprim : p.primary.isSome = true)
    (hp : args.primary = true) (htp : args.trust_primary = true)
    (hres : (dictLookup (get_primary fetch c []).1 P).isSome = true) :
    ∀ e ∈ (get_vers fetch args c).2.2.1, P ∉ e.2.map Prod.fst := by
  intro e he
  unfold get_vers at he
  rw [hp, htp, if_pos rfl] at he
  dsimp only at he
  rw [if_pos rfl] at he
  split at he
  · exact get_secondary_resolved fetch args c (get_primary fetch c []).1
      (get_primary fetch c []).2.1 _ P hres
      (not_mem_filter_isNone (get_primary fetch c []).1 c P hres) e he
  · exact absurd he (List.not_mem_nil e)

theorem C3_trust_primary_short_circuit_witness :
    "P" ∉ (("gitlab", [("Q", ({} : Pkg))]) : String × Pkgs).2.map Prod.fst :=
  C3_trust_primary_short_circuit
    (fun s _ => if s = "github" then [("P", ⟨0, [1]⟩)] else [])
    ⟨true, true, true, true⟩
    [("P", { primary := some "github" }), ("Q", {})] "P" { primary := some "github" }
    (by decide) (by decide) rfl rfl (by decide)
    ("gitlab", [("Q", {})]) (by decide)

theorem chain_append_anchor {b m : Dict} {t1 t2 : List Dict}
    (h1 : List.Chain' DictLe (b :: t1)) (h1l : (b :: t1).getLast? = some m)
    (h2 : List.Chain' DictLe (m :: t2)) :
    List.Chain' DictLe (b :: (t1 ++ t2)) ∧
    (b :: (t1 ++ t2)).getLast? = (m :: t2).getLast? := by
  have hcons : (b :: (t1 ++ t2)) = (b :: t1) ++ t2 := by simp
  constructor
  · rw [hcons]
    refine List.chain'_append.mpr ⟨h1, (List.chain'_cons'.mp h2).2, ?_⟩
    intro x hx y hy
    rw [h1l] at hx
    obtain rfl := Option.mem_some_iff.mp hx
    exact (List.chain'_cons'.mp h2).1 y hy
  · cases t2 with
    | nil =>
      simp only [List.append_nil]
      rw [h1l]
      rfl
    | cons y t2' =>
      rw [hcons, List.getLast?_append_of_ne_nil _ (by simp),
        show m :: y :: t2' = [m] ++ (y :: t2') from rfl,
        List.getLast?_append_of_ne_nil _ (by simp)]

theorem runSources_chain (fetch : Fetch) (args : Args) (c : Pkgs) :
    ∀ (ss : List String) (vers : Dict) (left : Pkgs),
      List.Chain' DictLe (vers :: (runSources fetch args c ss vers left).2.2.2) ∧
      (vers :: (runSources fetch args c ss vers left).2.2.2).getLast? =
        some (runSources fetch args c ss vers left).1 := by
  intro ss
  induction ss with
  | nil => exact fun vers left => ⟨List.chain'_singleton vers, rfl⟩
  | cons s ss ih =>
    intro vers left
    have hle : DictLe vers (get_secondary_source fetch args c s vers left).1 := by
      rw [gss_fst]
      exact update_DictLe vers (fetch s left)
    simp only [runSources]
    by_cases hemp : (get_secondary_source fetch args c s vers left).2.isEmpty = true
    · rw [if_pos hemp]
      exact ⟨List.chain'_pair.mpr hle, rfl⟩
    · rw [if_neg hemp]
      obtain ⟨ihc, ihl⟩ := ih (get_secondary_source fetch args c s vers left).1
        (get_secondary_source fetch args c s vers left).2
      refine ⟨List.chain'_cons.mpr ⟨hle, ihc⟩, ?_⟩
      dsimp only
      rw [show ∀ (a b : Dict) (l : List Dict), (a :: b :: l).getLast? = (b :: l).getLast?
        from fun a b l => by rw [show a :: b :: l = [a] ++ (b :: l) from rfl,
          List.getLast?_append_of_ne_nil _ (by simp)]]
      exact ihl

theorem run_secondary_chain (fetch : Fetch) (args : Args) (c : Pkgs)
    (vers : Dict) (asked : List String) (left : Pkgs)
    (l : String → List String → Bool) :
    List.Chain' DictLe (vers :: (run_secondary fetch args c vers asked left l).2.2.2) ∧
    (vers :: (run_secondary fetch args c vers asked left l).2.2.2).getLast? =
      some (run_secondary fetch args c vers asked left l).1 := by
  unfold run_secondary
  by_cases hemp : left.isEmpty = true
  · rw [if_pos hemp]
    exact ⟨List.chain'_singleton vers, rfl⟩
  · rw [if_neg hemp]
    exact runSources_chain fetch args c _ vers left

theorem get_secondary_chain (fetch : Fetch) (args : Args) (c : Pkgs)
    (vers : Dict) (asked : List String) (left : Pkgs) :
    List.Chain' DictLe (vers :: (get_secondary fetch args c vers asked left).2.2.2) ∧
    (vers :: (get_secondary fetch args c vers asked left).2.2.2).getLast? =
      some (get_secondary fetch args c vers asked left).1 := by
  unfold get_secondary
  dsimp only
  obtain ⟨c1, l1⟩ := run_secondary_chain fetch args c vers asked left
    (fun name asked => !(asked.contains name))
  obtain ⟨c2, l2⟩ := run_secondary_chain fetch args c
    (run_secondary fetch args c vers asked left (fun name asked => !(asked.contains name))).1
    asked
    (run_secondary fetch args c vers asked left (fun name asked => !(asked.contains name))).2.1
    (fun name asked => asked.contains name)
  obtain ⟨hc, hl⟩ := chain_append_anchor c1 l1 c2
  exact ⟨hc, hl.trans l2⟩

theorem primFold_chain (fetch : Fetch) :
    ∀ (gs : List (String × Pkgs)) (b : Dict) (st : Dict × List String × List Dict),
      List.Chain' DictLe (b :: st.2.2) → (b :: st.2.2).getLast? = some st.1 →
      List.Chain' DictLe (b :: (gs.foldl (primStep fetch) st).2.2) ∧
      (b :: (gs.foldl (primStep fetch) st).2.2).getLast? =
        some (gs.foldl (primStep fetch) st).1 := by
  intro gs
  induction gs with
  | nil => exact fun b st hc hl => ⟨hc, hl⟩
  | cons kg gs ih =>
    intro b st hc hl
    simp only [List.foldl_cons]
    refine ih b (primStep fetch st kg) ?_ ?_
    · show List.Chain' DictLe (b :: (st.2.2 ++ [update st.1 (fetch kg.1 kg.2)]))
      rw [show b :: (st.2.2 ++ [update st.1 (fetch kg.1 kg.2)]) =
        (b :: st.2.2) ++ [update st.1 (fetch kg.1 kg.2)] from by simp]
      refine List.chain'_append.mpr ⟨hc, List.chain'_singleton _, ?_⟩
      intro x hx y hy
      rw [hl] at hx
      obtain rfl := Option.mem_some_iff.mp hx
      simp only [List.head?_cons, Option.mem_some_iff] at hy
      subst hy
      exact update_DictLe st.1 (fetch kg.1 kg.2)
    · show (b :: (st.2.2 ++ [update st.1 (fetch kg.1 kg.2)])).getLast? =
        some (update st.1 (fetch kg.1 kg.2))
      rw [show b :: (st.2.2 ++ [update st.1 (fetch kg.1 kg.2)]) =
        (b :: st.2.2) ++ [update st.1 (fetch kg.1 kg.2)] from by simp,
        List.getLast?_append_of_ne_nil _ (by simp)]
      rfl

theorem get_primary_chain (fetch : Fetch) (c : Pkgs) (vers : Dict) :
    List.Chain' DictLe (vers :: (get_primary fetch c vers).2.2) ∧
    (vers :: (get_primary fetch c vers).2.2).getLast? =
      some (get_primary fetch c vers).1 :=
  primFold_chain fetch _ vers (vers, [], []) (List.chain'_singleton vers) rfl

/-- The resolved-map state trace of a whole run: the initial empty map,
then the state after every merge of the primary and secondary phases. -/
def get_vers_trace (fetch : Fetch) (args : Args) (c : Pkgs) : List Dict :=
  (get_vers fetch args c).2.2.2

theorem get_vers_chain_aux (fetch : Fetch) (args : Args) (c : Pkgs)
    (pr : Dict × List String × List Dict) (left : Pkgs) (cond : Bool)
    (hc : List.Chain' DictLe (([] : Dict) :: pr.2.2))
    (hl : (([] : Dict) :: pr.2.2).getLast? = some pr.1) :
    List.Chain' DictLe
      ((if cond = true then
          ((get_secondary fetch args c pr.1 pr.2.1 left).1,
           (get_secondary fetch args c pr.1 pr.2.1 left).2.1,
           (get_secondary fetch args c pr.1 pr.2.1 left).2.2.1,
           ([] : Dict) :: (pr.2.2 ++ (get_secondary fetch args c pr.1 pr.2.1 left).2.2.2))
        else (pr.1, left, ([] : List (String × Pkgs)), ([] : Dict) :: pr.2.2)).2.2.2) := by
  cases cond
  · rw [if_neg (by decide)]
    exact hc
  · rw [if_pos rfl]
    exact (chain_append_anchor hc hl
      (get_secondary_chain fetch args c pr.1 pr.2.1 left).1).1

theorem get_vers_chain (fetch : Fetch) (args : Args) (c : Pkgs) :
    List.Chain' DictLe (get_vers_trace fetch args c) := by
  unfold get_vers_trace get_vers
  dsimp only
  refine get_vers_chain_aux fetch args c _ _ _ ?_ ?_
  · by_cases hp : args.primary = true
    · rw [hp, if_pos rfl]
      exact (get_primary_chain fetch c []).1
    · rw [Bool.not_eq_true] at hp
      rw [hp, if_neg (by decide)]
      exact List.chain'_singleton _
  · by_cases hp : args.primary = true
    · rw [hp, if_pos rfl]
      exact (get_primary_chain fetch c []).2
    · rw [Bool.not_eq_true] at hp
      rw [hp, if_neg (by decide)]
      rfl

/-- C2: merge is monotone — every key of `old` survives `update old new`
with a value at least as large under the version order — and over a whole
run the resolved-map state trace is pairwise `DictLe`: once a name maps to
a value, every later state maps it to a value at least as large, never
strictly less. -/
theorem C2_resolved_map_monotone (old new : Dict) (k : String) (v : NVersion)
    (h : dictLookup old k = some v) (fetch : Fetch) (args : Args) (c : Pkgs) :
    (∃ v', dictLookup (update old new) k = some v' ∧ nvLe v v' = true) ∧
    List.Pairwise DictLe (get_vers_trace fetch args c) := by
  refine ⟨update_lookup_mono new old k v h, ?_⟩
  rw [← List.chain'_iff_pairwise]
  exact get_vers_chain fetch args c

theorem C2_resolved_map_monotone_witness :
    (∃ v', dictLookup (update [("a", NVersion.mk 0 [1])] [("a", ⟨0, [2]⟩)]) "a" =
      some v' ∧ nvLe ⟨0, [1]⟩ v' = true) ∧
    List.Pairwise DictLe (get_vers_trace
      (fun s _ => if s = "arch" then [("a", ⟨0, [2]⟩)] else [])
      ⟨true, true, true, true⟩ [("a", {})]) :=
  C2_resolved_map_monotone [("a", ⟨0, [1]⟩)] [("a", ⟨0, [2]⟩)] "a" ⟨0, [1]⟩ (by decide)
    (fun s _ => if s = "arch" then [("a", ⟨0, [2]⟩)] else [])
    ⟨true, true, true, true⟩ [("a", {})]

theorem gss_snd_no_trust (fetch : Fetch) (args : Args) (c : Pkgs) (s : String)
    (vers : Dict) (left : Pkgs) (hts : args.trust_secondary = false) :
    (get_secondary_source fetch args c s vers left).2 = left := by
  unfold get_secondary_source
  rw [hts, if_neg (by decide)]

theorem runSources_no_trust (fetch : Fetch) (args : Args) (c : Pkgs)
    (hts : args.trust_secondary = false) :
    ∀ (ss : List String) (vers : Dict) (left : Pkgs), left ≠ [] →
      (runSources fetch args c ss vers left).2.2.1 = ss.map (fun s => (s, left)) ∧
      (runSources fetch args c ss vers left).2.1 = left := by
  intro ss
  induction ss with
  | nil => exact fun vers left _ => ⟨rfl, rfl⟩
  | cons s ss ih =>
    intro vers left hleft
    simp only [runSources]
    rw [gss_snd_no_trust fetch args c s vers left hts,
      if_neg (fun hh => hleft (List.isEmpty_iff.mp hh))]
    obtain ⟨ih1, ih2⟩ := ih (get_secondary_source fetch args c s vers left).1 left hleft
    dsimp only
    rw [ih1, ih2]
    exact ⟨rfl, rfl⟩

theorem runSources_DictLe (fetch : Fetch) (args : Args) (c : Pkgs) :
    ∀ (ss : List String) (vers : Dict) (left : Pkgs),
      DictLe vers (runSources fetch args c ss vers left).1 := by
  intro ss
  induction ss with
  | nil => exact fun vers _ => DictLe_refl vers
  | cons s ss ih =>
    intro vers left
    have hle : DictLe vers (get_secondary_source fetch args c s vers left).1 := by
      rw [gss_fst]
      exact update_DictLe vers (fetch s left)
    simp only [runSources]
    by_cases hemp : (get_secondary_source fetch args c s vers left).2.isEmpty = true
    · rw [if_pos hemp]
      exact hle
    · rw [if_neg hemp]
      exact DictLe_trans hle (ih _ _)

theorem runSources_candidate (fetch : Fetch) (args : Args) (c : Pkgs) :
    ∀ (ss : List String) (vers : Dict) (left : Pkgs) (s : String) (elig : Pkgs)
      (P : String) (v : NVersion),
      (s, elig) ∈ (runSources fetch args c ss vers left).2.2.1 →
      dictLookup (fetch s elig) P = some v →
      ∃ v', dictLookup (runSources fetch args c ss vers left).1 P = some v' ∧
        nvLe v v' = true := by
  intro ss
  induction ss with
  | nil =>
    intro vers left s elig P v hmem _
    simp [runSources] at hmem
  | cons s0 ss ih =>
    intro vers left s elig P v hmem hcand
    simp only [runSources] at hmem ⊢
    by_cases hemp : (get_secondary_source fetch args c s0 vers left).2.isEmpty = true
    · rw [if_pos hemp] at hmem ⊢
      simp only [List.mem_singleton, Prod.ext_iff] at hmem
      obtain ⟨h1, h2⟩ := hmem
      subst h1
      subst h2
      rw [gss_fst]
      exact update_entry_le (fetch s elig) vers P v (dictLookup_mem _ _ _ hcand)
    · rw [if_neg hemp] at hmem ⊢
      dsimp only at hmem ⊢
      rcases List.mem_cons.mp hmem with he | he
      · rw [Prod.ext_iff] at he
        obtain ⟨h1, h2⟩ := he
        subst h1
        subst h2
        have hr1 : ∃ w, dictLookup (get_secondary_source fetch args c s vers elig).1 P =
            some w ∧ nvLe v w = true := by
          rw [gss_fst]
          exact update_entry_le (fetch s elig) vers P v (dictLookup_mem _ _ _ hcand)
        obtain ⟨w, hw, hvw⟩ := hr1
        obtain ⟨v', hv', hwv'⟩ := runSources_DictLe fetch args c ss _ _ P w hw
        exact ⟨v', hv', nvLe_trans hvw hwv'⟩
      · exact ih _ _ s elig P v he hcand

theorem run_secondary_no_trust (fetch : Fetch) (args : Args) (c : Pkgs)
    (vers : Dict) (asked : List String) (left : Pkgs) (l : String → List String → Bool)
    (hts : args.trust_secondary = false) (hleft : left ≠ []) :
    (run_secondary fetch args c vers asked left l).2.2.1 =
      (sources_list.filter (fun n => l n asked)).map (fun s => (s, left)) ∧
    (run_secondary fetch args c vers asked left l).2.1 = left := by
  unfold run_secondary
  rw [if_neg (fun hh => hleft (List.isEmpty_iff.mp hh))]
  exact runSources_no_trust fetch args c hts _ vers left hleft

theorem run_secondary_DictLe (fetch : Fetch) (args : Args) (c : Pkgs)
    (vers : Dict) (asked : List String) (left : Pkgs) (l : String → List String → Bool) :
    DictLe vers (run_secondary fetch args c vers asked left l).1 := by
  unfold run_secondary
  split
  · exact DictLe_refl vers
  · exact runSources_DictLe fetch args c _ vers left

theorem run_secondary_candidate (fetch : Fetch) (args : Args) (c : Pkgs)
    (vers : Dict) (asked : List String) (left : Pkgs) (l : String → List String → Bool)
    (s : String) (elig : Pkgs) (P : String) (v : NVersion)
    (hmem : (s, elig) ∈ (run_secondary fetch args c vers asked left l).2.2.1)
    (hcand : dictLookup (fetch s elig) P = some v) :
    ∃ v', dictLookup (run_secondary fetch args c vers asked left l).1 P = some v' ∧
      nvLe v v' = true := by
  unfold run_secondary at hmem ⊢
  split at hmem
  · cases hmem
  · rw [if_neg (by assumption)]
    exact runSources_candidate fetch args c _ vers left s elig P v hmem hcand

/-- C4: with trust_secondary disabled, the left set is never shrunk during
the secondary phase — both passes invoke every one of their sources with
exactly the original eligible set — and the final resolved value of any
package is never strictly below any single source's successfully parsed
candidate for it. -/
theorem C4_no_trust_secondary (fetch : Fetch) (args : Args) (c : Pkgs)
    (vers : Dict) (asked : List String) (left : Pkgs) (P : String)
    (hts : args.trust_secondary = false) (hleft : left ≠ []) :
    (get_secondary fetch args c vers asked left).2.2.1 =
      (sources_list.filter (fun n => !(asked.contains n)) ++
       sources_list.filter (fun n => asked.contains n)).map (fun s => (s, left)) ∧
    (∀ s elig v, (s, elig) ∈ (get_secondary fetch args c vers asked left).2.2.1 →
      dictLookup (fetch s elig) P = some v →
      ∃ v', dictLookup (get_secondary fetch args c vers asked left).1 P = some v' ∧
        nvLe v v' = true) := by
  unfold get_secondary
  dsimp only
  obtain ⟨l1, e1⟩ := run_secondary_no_trust fetch args c vers asked left
    (fun name asked => !(asked.contains name)) hts hleft
  rw [e1]
  obtain ⟨l2, _⟩ := run_secondary_no_trust fetch args c
    (run_secondary fetch args c vers asked left (fun name asked => !(asked.contains name))).1
    asked left (fun name asked => asked.contains name) hts hleft
  constructor
  · rw [l1, l2, List.map_append]
  · intro s elig v hmem hcand
    rcases List.mem_append.mp hmem with he | he
    · obtain ⟨w, hw, hvw⟩ := run_secondary_candidate fetch args c vers asked left
        (fun name asked => !(asked.contains name)) s elig P v he hcand
      obtain ⟨v', hv', hwv'⟩ := run_secondary_DictLe fetch args c
        (run_secondary fetch args c vers asked left
          (fun name asked => !(asked.contains name))).1
        asked left (fun name asked => asked.contains name) P w hw
      exact ⟨v', hv', nvLe_trans hvw hwv'⟩
    · exact run_secondary_candidate fetch args c _ asked left
        (fun name asked => asked.contains name) s elig P v he hcand

theorem C4_no_trust_secondary_witness :
    ((get_secondary (fun s _ => if s = "github" then [("P", ⟨0, [1]⟩)] else [])
        ⟨true, true, true, false⟩ [("P", {})] [] [] [("P", {})]).2.2.1 =
      (sources_list.filter (fun n => !(([] : List String).contains n)) ++
       sources_list.filter (fun n => ([] : List String).contains n)).map
        (fun s => (s, [("P", ({} : Pkg))]))) ∧
    (∀ s elig v, (s, elig) ∈ (get_secondary
        (fun s _ => if s = "github" then [("P", ⟨0, [1]⟩)] else [])
        ⟨true, true, true, false⟩ [("P", {})] [] [] [("P", {})]).2.2.1 →
      dictLookup ((fun s _ => if s = "github" then [("P", ⟨0, [1]⟩)] else
        ([] : Dict)) s elig) "P" = some v →
      ∃ v', dictLookup (get_secondary
          (fun s _ => if s = "github" then [("P", ⟨0, [1]⟩)] else [])
          ⟨true, true, true, false⟩ [("P", {})] [] [] [("P", {})]).1 "P" = some v' ∧
        nvLe v v' = true) :=
  C4_no_trust_secondary (fun s _ => if s = "github" then [("P", ⟨0, [1]⟩)] else [])
    ⟨true, true, true, false⟩ [("P", {})] [] [] [("P", {})] "P" rfl (by decide)
